import Mathlib

/-!
Elvish line editor: code buffer, state mutation and readline hooks

A shallow embedding of `cli/codearea/state.go` and `cliedit/api.go`, together
with models of the listing layout and of the history-list and last-command
addons, and the properties proved about them.

Go strings are byte sequences, so a string is a list of bytes and every
length and offset below is counted in bytes.  Go's `int` is kept as a
mathematical integer: the only arithmetic the embedded code does on it is
`c.Dot + len(text)`, which for an in-range `Dot` is bounded by the length of
the string that the same statement builds, and the length of a Go string
always fits in an `int`.
-/

namespace Elvish

/-- One byte of a Go string. -/
abbrev Byte := Fin 256

/-- Go's `string`: an immutable sequence of bytes. -/
abbrev GoString := List Byte

/-- Bytes of an ASCII literal (used to write down concrete strings). -/
def ascii (s : String) : GoString :=
  s.data.map (fun ch => Fin.ofNat ch.toNat)

/-- Runtime failures of the embedded Go code. -/
inductive Panic where
  | sliceBounds (index : Int) (length : Nat)
  | value (msg : GoString)
  deriving DecidableEq, Repr

/-- Go's `s[:hi]`: panics unless `0 <= hi <= len(s)`. -/
def sliceTo (s : GoString) (hi : Int) : Except Panic GoString :=
  if 0 ≤ hi ∧ hi ≤ (s.length : Int) then .ok (s.take hi.toNat)
  else .error (.sliceBounds hi s.length)

/-- Go's `s[lo:]`: panics unless `0 <= lo <= len(s)`. -/
def sliceFrom (s : GoString) (lo : Int) : Except Panic GoString :=
  if 0 ≤ lo ∧ lo ≤ (s.length : Int) then .ok (s.drop lo.toNat)
  else .error (.sliceBounds lo s.length)

namespace codearea

/-- The `CodeBuffer` struct of `state.go`: the content and the dot, a byte
index into the content. -/
structure CodeBuffer where
  Content : GoString
  Dot : Int
  deriving DecidableEq, Repr

/-- The `PendingCode` struct of `state.go`. -/
structure PendingCode where
  Begin : Int
  End : Int
  Text : GoString
  deriving DecidableEq, Repr

/-- The documented invariant of a code buffer: `0 <= Dot <= len(Content)`. -/
def CodeBuffer.WellFormed (c : CodeBuffer) : Prop :=
  0 ≤ c.Dot ∧ c.Dot ≤ (c.Content.length : Int)

instance (c : CodeBuffer) : Decidable c.WellFormed := by
  unfold CodeBuffer.WellFormed; infer_instance

/-- The method `(*CodeBuffer).InsertAtDot`:
`*c = CodeBuffer{Content: c.Content[:c.Dot] + text + c.Content[c.Dot:], Dot: c.Dot + len(text)}`.
The two slice expressions are evaluated left to right and either may panic. -/
def CodeBuffer.InsertAtDot (c : CodeBuffer) (text : GoString) : Except Panic CodeBuffer := do
  let before ← sliceTo c.Content c.Dot
  let after ← sliceFrom c.Content c.Dot
  pure { Content := before ++ text ++ after, Dot := c.Dot + (text.length : Int) }

/-- The inverse edit of the round-trip property, in the words of the
specification: "removing `n` characters ending at the Dot" and moving the dot
back by `n`, written with Go slices: `Content[:Dot-n] + Content[Dot:]`
(`state.go` itself has no such method). -/
def CodeBuffer.removeBeforeDot (c : CodeBuffer) (n : Nat) : Except Panic CodeBuffer := do
  let before ← sliceTo c.Content (c.Dot - (n : Int))
  let after ← sliceFrom c.Content c.Dot
  pure { Content := before ++ after, Dot := c.Dot - (n : Int) }

end codearea


/-- Go's `sync.RWMutex`, by who holds it: nobody, one or more readers
(`readLocked n` stands for `n + 1` readers), or one writer. -/
inductive RWMutex where
  | unlocked
  | readLocked (more : Nat)
  | writeLocked
  deriving DecidableEq, Repr

/-- The method `Lock` where it can return at once: it takes the write lock
when nobody holds the mutex; `none` when the caller has to wait for the
holders. -/
def RWMutex.Lock : RWMutex → Option RWMutex
  | .unlocked => some .writeLocked
  | _ => none

/-- The method `Unlock`: releases the write lock; `none` is the fatal error
"sync: Unlock of unlocked RWMutex", raised when no writer holds the mutex. -/
def RWMutex.Unlock : RWMutex → Option RWMutex
  | .writeLocked => some .unlocked
  | _ => none

namespace styled

/-- One attribute set of styled text, as a list of attribute names
(`"bold"`, `"inverse"`, ...); the empty list is plain text. -/
abbrev Style := List String

/-- Modelled from the spec: `styled.Segment`, a string fragment with its style
attributes (the package `styled` is not among the sources). -/
structure Segment where
  Style : Style
  Text : GoString
  deriving DecidableEq, Repr

/-- Modelled from the spec: `styled.Text`, an ordered sequence of
(string fragment, style attributes) pairs. -/
abbrev Text := List Segment

end styled

namespace codearea

/-- The `State` struct of `state.go`. -/
structure State where
  Mutex : RWMutex
  CodeBuffer : CodeBuffer
  PendingCode : PendingCode
  Prompt : styled.Text
  RPrompt : styled.Text
  deriving DecidableEq, Repr

/-- The ways a call can end. -/
inductive Exit (σ : Type) where
  /-- Normal return, with the state left behind. -/
  | returned (s : σ)
  /-- The call unwinds with a panic, with the state left behind. -/
  | panicked (s : σ) (p : Panic)
  /-- The call waits for ever. -/
  | blocked
  /-- Fatal runtime error (unlock of an unlocked mutex): the program stops. -/
  | fatal
  deriving DecidableEq, Repr

/-- A mutator `f func(*CodeBuffer)`.  It is a Go closure: besides the buffer
behind its argument it can reach whatever it captured, at most the whole
`State` that the buffer is a field of, the mutex included.  So it is a function
of the state it is started in, and it ends in one of the ways a call can end.
The argument `&s.CodeBuffer` is the field `CodeBuffer` of that state. -/
abbrev Mutator := State → Exit State

/-- The call `s.Mutex.Lock()`, which returns once the caller has the write
lock: at once when nobody holds the mutex; otherwise the caller waits for the
holders, and `wait s` is the state they leave behind when all of them have
released it (`none` when they never do). -/
def State.lock (wait : State → Option State) (s : State) : Option State :=
  match s.Mutex.Lock with
  | some held => some { s with Mutex := held }
  | none => (wait s).map fun s0 => { s0 with Mutex := .writeLocked }

/-- The deferred call `s.Mutex.Unlock()`, run when the body returns and when
it panics. -/
def deferredUnlock : Exit State → Exit State
  | .returned s1 =>
    match s1.Mutex.Unlock with
    | some released => .returned { s1 with Mutex := released }
    | none => .fatal
  | .panicked s1 p =>
    match s1.Mutex.Unlock with
    | some released => .panicked { s1 with Mutex := released } p
    | none => .fatal
  | .blocked => .blocked
  | .fatal => .fatal

/-- The method `(*State).MutateCodeBuffer`:
```go
s.Mutex.Lock()
defer s.Mutex.Unlock()
f(&s.CodeBuffer)
```
-/
def State.MutateCodeBuffer (wait : State → Option State) (s : State) (f : Mutator) :
    Exit State :=
  match s.lock wait with
  | none => .blocked
  | some locked => deferredUnlock (f locked)

/-- What a function of the buffer alone leaves behind: the buffer behind the
pointer when it stops, and the panic value if it stopped by panicking. -/
structure BufferResult where
  buf : CodeBuffer
  panic : Option Panic
  deriving DecidableEq, Repr

/-- A mutator that touches nothing but the buffer behind its argument. -/
def onBuffer (g : CodeBuffer → BufferResult) : Mutator := fun s =>
  match (g s.CodeBuffer).panic with
  | none => .returned { s with CodeBuffer := (g s.CodeBuffer).buf }
  | some p => .panicked { s with CodeBuffer := (g s.CodeBuffer).buf } p

/-- The mutator `func(c *CodeBuffer) { c.InsertAtDot(text) }`; a panic in
`InsertAtDot` happens before the assignment to `*c`. -/
def insertMutator (text : GoString) : Mutator :=
  onBuffer fun c =>
    match c.InsertAtDot text with
    | .ok c' => { buf := c', panic := none }
    | .error p => { buf := c, panic := some p }

/-- A mutator that releases the mutex of the state itself and returns. -/
def unlockingMutator : Mutator := fun s =>
  match s.Mutex.Unlock with
  | some released => .returned { s with Mutex := released }
  | none => .fatal

/-- A mutator that looks at the mutex: it returns when the write lock is held
and panics otherwise. -/
def probeMutator : Mutator := fun s =>
  if s.Mutex = .writeLocked then .returned s else .panicked s (.value (ascii "not locked"))

end codearea

namespace cliedit

/-- An `eval.Callable`, identified by a number. -/
structure Callable where
  id : Nat
  deriving DecidableEq, Repr

/-- An element of a hook list (`interface{}`): a callable or any other value. -/
inductive Value where
  | callable (fn : Callable)
  | other (repr : GoString)
  deriving DecidableEq, Repr

/-- What running a hook does, in order. -/
inductive Effect where
  /-- The call `diag.Complainf("%s not function", name)`. -/
  | Complain (msg : String)
  /-- The call `fm.Call(fn, args, eval.NoOpts)` in a top frame whose source is `src`. -/
  | Call (src : String) (fn : Callable) (args : List GoString)
  deriving DecidableEq, Repr

/-- The loop of the closure `app.AppSpec.BeforeReadline` in
`initBeforeReadline`, over the remaining elements of the iterator, the counter
`i` and the effects so far.  The value returned by `fm.Call` is discarded. -/
def beforeReadlineLoop : List Value → Int → List Effect → List Effect
  | [], _, log => log
  | elem :: rest, i, log =>
    let i := i + 1
    let name := "$before-readline[" ++ toString i ++ "]"
    match elem with
    | .callable fn => beforeReadlineLoop rest i (log ++ [.Call name fn []])
    | _ => beforeReadlineLoop rest i (log ++ [.Complain (name ++ " not function")])

/-- The closure `app.AppSpec.BeforeReadline`: `i := -1`, then the loop over the
value of the hook variable. -/
def BeforeReadline (hook : List Value) : List Effect :=
  beforeReadlineLoop hook (-1) []

/-- The loop of the closure `app.AppSpec.AfterReadline` in `initAfterReadline`. -/
def afterReadlineLoop (code : GoString) : List Value → Int → List Effect → List Effect
  | [], _, log => log
  | elem :: rest, i, log =>
    let i := i + 1
    let name := "$after-readline[" ++ toString i ++ "]"
    match elem with
    | .callable fn => afterReadlineLoop code rest i (log ++ [.Call name fn [code]])
    | _ => afterReadlineLoop code rest i (log ++ [.Complain (name ++ " not function")])

/-- The closure `app.AppSpec.AfterReadline`. -/
def AfterReadline (hook : List Value) (code : GoString) : List Effect :=
  afterReadlineLoop code hook (-1) []

/-- The calls among a run of effects, as (callable, arguments) pairs. -/
def calls (log : List Effect) : List (Callable × List GoString) :=
  log.filterMap fun e =>
    match e with
    | .Call _ fn args => some (fn, args)
    | .Complain _ => none

/-- The diagnostics among a run of effects. -/
def complaints (log : List Effect) : List String :=
  log.filterMap fun e =>
    match e with
    | .Complain msg => some msg
    | .Call _ _ _ => none

/-- What the entry at index `k` of the hook list named `hookName` is expected
to cause: a callable is called once with `args`, any other value draws the
diagnostic `<hookName>[<k>] not function`. -/
def hookEffect (hookName : String) (args : List GoString) (k : Int) (v : Value) : Effect :=
  match v with
  | .callable fn => .Call (hookName ++ "[" ++ toString k ++ "]") fn args
  | .other _ => .Complain (hookName ++ "[" ++ toString k ++ "]" ++ " not function")

/-- The callables of a hook list, in list order. -/
def callables (hook : List Value) : List Callable :=
  hook.filterMap fun v =>
    match v with
    | .callable fn => some fn
    | .other _ => none

end cliedit

/-! ## The addons and the listing layout

The packages `cli`, `histutil`, `ui`, `layout`, `histlist` and `lastcmd` are
known here through their tests only; their operations are modelled from the
specification. -/

/-- Go's `strings.Contains(s, substr)` on byte strings. -/
def contains (s substr : GoString) : Bool :=
  decide (substr <:+: s)

namespace histutil

/-- Modelled from the spec: a history entry `{Text, Seq}` of the store
contract (package `histutil` is not among the sources). -/
structure Entry where
  Text : GoString
  Seq : Int
  deriving DecidableEq, Repr

end histutil

namespace cli

/-- Modelled from the spec: the part of the application state (`cli.App`,
not among the sources) that an addon touches: the code buffer of the base code
area, the addon shown above it, if any, and the pending notes. -/
structure App (α : Type) where
  CodeArea : codearea.CodeBuffer
  Listing : Option α
  Notes : List GoString

/-- Modelled from the spec: `app.Notify(note)` adds a one-line note to the
notes area. -/
def App.Notify {α : Type} (app : App α) (note : GoString) : App α :=
  { app with Notes := app.Notes ++ [note] }

/-- Modelled from the spec: what accepting a candidate does (section 4.5):
the value is inserted into the base code area at the dot, starting on a new
line when the code area already has content, and the addon is popped. -/
def App.accept {α : Type} (app : App α) (text : GoString) : Except Panic (App α) := do
  let buf ←
    if app.CodeArea.Content = [] then app.CodeArea.InsertAtDot text
    else app.CodeArea.InsertAtDot ((10 : Byte) :: text)
  pure { app with CodeArea := buf, Listing := none }

/-- Modelled from the spec: the selection index after the candidate list
changed to `n` candidates: an index that is still valid stays, any other
"clamps to the last valid index, or to no selection (`-1`) if the filtered set
is empty". -/
def clampSelected (selected : Int) (n : Nat) : Int :=
  if 0 ≤ selected ∧ selected < (n : Int) then selected else (n : Int) - 1

end cli

namespace histlist

open cli histutil

/-- Modelled from the spec: the store collaborator of the history list; its
`AllCmds()` answers with the entries or fails with an error, kept as its
message `err.Error()`. -/
structure Store where
  AllCmds : Except GoString (List Entry)

/-- Modelled from the spec: `histlist.Config`; a nil `Store` is `none`. -/
structure Config where
  Store : Option Store

/-- Modelled from the spec: the combobox state of the history list: all
candidates, the filter text, the filtered candidates and the selection index
into them. -/
structure Widget where
  All : List Entry
  Filter : GoString
  Filtered : List Entry
  Selected : Int
  deriving DecidableEq, Repr

/-- Modelled from the spec: the filter of the history list, "substring match
against entry text", which keeps the order of the candidates. -/
def filter (cmds : List Entry) (p : GoString) : List Entry :=
  cmds.filter (fun e => contains e.Text p)

/-- Modelled from the spec: the history-list widget right after a successful
start over `cmds`: no filter text, every entry a candidate, the last one
selected. -/
def started (cmds : List Entry) : Widget :=
  { All := cmds, Filter := [], Filtered := cmds, Selected := (cmds.length : Int) - 1 }

/-- Modelled from the spec: `histlist.Start` (sections 4.5 and 4.6).  Without a
store, or when `AllCmds` fails, the addon is not activated and a note is
shown; otherwise all entries are the candidates, in store order, and the last
one is selected. -/
def Start (app : App Widget) (cfg : Config) : App Widget :=
  match cfg.Store with
  | none => app.Notify (ascii "no history store")
  | some store =>
    match store.AllCmds with
    | .error msg => app.Notify (ascii "db error: " ++ msg)
    | .ok cmds =>
      { app with Listing := some (started cmds) }

/-- Modelled from the spec: the reaction to a change of the filter text: the
filtered candidates are recomputed from all candidates and the selection index
is clamped. -/
def Widget.OnFilter (w : Widget) (p : GoString) : Widget :=
  let filtered := filter w.All p
  { w with Filter := p, Filtered := filtered,
           Selected := clampSelected w.Selected filtered.length }

/-- Modelled from the spec: typing a key into the filter line appends it to
the filter text, which changes the filter. -/
def Widget.typeKey (w : Widget) (key : Byte) : Widget :=
  w.OnFilter (w.Filter ++ [key])

/-- Typing a text, key after key. -/
def Widget.typeKeys (w : Widget) (keys : GoString) : Widget :=
  keys.foldl Widget.typeKey w

/-- The selected candidate, if any. -/
def Widget.selectedEntry (w : Widget) : Option Entry :=
  if 0 ≤ w.Selected then w.Filtered[w.Selected.toNat]? else none

/-- The state of the widget after typing `p`: the filter text is `p`, the
candidates shown are the matches of `p`, and the selection is on the last of
them (`-1` when there is none). -/
def Typed (cmds : List Entry) (p : GoString) (w : Widget) : Prop :=
  w.All = cmds ∧ w.Filter = p ∧ w.Filtered = filter cmds p ∧
    w.Selected = ((filter cmds p).length : Int) - 1

end histlist

namespace lastcmd

open cli histutil

/-- Modelled from the spec: the store collaborator of the last-command addon;
its `LastCmd()` answers with the most recent entry or fails with an error,
kept as its message. -/
structure Store where
  LastCmd : Except GoString Entry

/-- Modelled from the spec: `lastcmd.Config`: the store and the pluggable
wordifier; `none` stands for a nil field. -/
structure Config where
  Store : Option Store
  Wordifier : Option (GoString → List GoString)

/-- ASCII white space, as `strings.Fields` sees it in ASCII text. -/
def isSpace (b : Byte) : Bool :=
  b = 32 || b = 9 || b = 10 || b = 11 || b = 12 || b = 13

/-- The scan of `Fields`: `cur` is the word being read, `acc` the words
finished so far. -/
def fieldsFrom : List Byte → GoString → List GoString → List GoString
  | [], cur, acc => if cur = [] then acc else acc ++ [cur]
  | b :: rest, cur, acc =>
    if isSpace b then fieldsFrom rest [] (if cur = [] then acc else acc ++ [cur])
    else fieldsFrom rest (cur ++ [b]) acc

/-- Modelled from the spec: the default wordifier, which "splits on
whitespace" (Go's `strings.Fields`). -/
def Fields (s : GoString) : List GoString :=
  fieldsFrom s [] []

/-- The wordifier of `TestStart_OK`: `strings.Split(cmd, ",")`. -/
def commaWordifier (cmd : GoString) : List GoString :=
  cmd.splitOn 44

/-- Modelled from the spec: a candidate of the last-command addon: a text and
its index label; the whole command carries no label. -/
structure entry where
  content : GoString
  index : Option Int
  deriving DecidableEq, Repr

/-- Modelled from the spec: the combobox state of the last-command addon. -/
structure Widget where
  cmd : GoString
  words : List GoString
  Filter : GoString
  Filtered : List entry
  Selected : Int
  deriving DecidableEq, Repr

/-- Modelled from the spec: the candidates in positive mode: the whole command,
then the words "with ascending non-negative indices". -/
def posEntries (cmd : GoString) (words : List GoString) : List entry :=
  { content := cmd, index := none } ::
    words.enum.map (fun iw => { content := iw.2, index := some (iw.1 : Int) })

/-- Modelled from the spec: the candidates in negative mode: the words,
"relabeled with negative offsets counting back from the last word (`-1` = last
word)". -/
def negEntries (words : List GoString) : List entry :=
  words.enum.map
    (fun iw => { content := iw.2, index := some ((iw.1 : Int) - (words.length : Int)) })

/-- Modelled from the spec: the candidates shown for filter text `p`: a text
that begins with `-` switches to negative indexing, any other text filters the
positive candidates by substring. -/
def filter (cmd : GoString) (words : List GoString) (p : GoString) : List entry :=
  match p with
  | 45 :: _ => negEntries words
  | _ => (posEntries cmd words).filter (fun e => contains e.content p)

/-- Modelled from the spec: a change of the filter text recomputes the
candidates; "the first candidate is pre-selected". -/
def Widget.OnFilter (w : Widget) (p : GoString) : Widget :=
  let filtered := filter w.cmd w.words p
  { w with Filter := p, Filtered := filtered, Selected := if filtered = [] then -1 else 0 }

/-- The value of an ASCII digit. -/
def digit? (key : Byte) : Option Nat :=
  if 48 ≤ key.val ∧ key.val ≤ 57 then some (key.val - 48) else none

/-- The key of the decimal digit `k`. -/
def digitKey (k : Nat) : Byte :=
  Fin.ofNat (48 + k)

/-- Modelled from the spec: the index a digit names: typed first it is the
non-negative index `k`, typed right after the leading `-` it is `-k`; after
any other filter text a digit is ordinary filter text. -/
def numericIndex (p : GoString) (key : Byte) : Option Int :=
  match digit? key with
  | none => none
  | some k =>
    if p = [] then some (k : Int)
    else if p = [45] then some (-(k : Int))
    else none

/-- Modelled from the spec: the word with index label `idx` among the labelled
candidates, non-negative labels counting from the first word and negative ones
back from the last. -/
def wordAt (words : List GoString) (idx : Int) : Option GoString :=
  if 0 ≤ idx then words[idx.toNat]?
  else if -(words.length : Int) ≤ idx then words[((words.length : Int) + idx).toNat]?
  else none

/-- Modelled from the spec: the last-command widget right after a successful
start: the whole command and its words as candidates, the first candidate
selected. -/
def started (cmd : GoString) (words : List GoString) : Widget :=
  { cmd := cmd, words := words, Filter := [], Filtered := posEntries cmd words, Selected := 0 }

/-- Modelled from the spec: `lastcmd.Start` (sections 4.5 and 4.6).  Without a
store, or when `LastCmd` fails, the addon is not activated and a note is shown;
otherwise the words of the last command, cut by the configured wordifier or by
the default one, become the candidates. -/
def Start (app : App Widget) (cfg : Config) : App Widget :=
  match cfg.Store with
  | none => app.Notify (ascii "no history store")
  | some store =>
    match store.LastCmd with
    | .error msg => app.Notify (ascii "db error: " ++ msg)
    | .ok cmd =>
      let wordifier := cfg.Wordifier.getD Fields
      { app with Listing := some (started cmd.Text (wordifier cmd.Text)) }

/-- Modelled from the spec: a key typed into the active last-command addon.
A digit typed first, or right after the leading `-`, that names a word
"selects and immediately accepts the candidate at that index without requiring
an explicit accept keypress"; any other key is appended to the filter text.
With no addon active the key is not handled here. -/
def typeKey (app : App Widget) (key : Byte) : Except Panic (App Widget) :=
  match app.Listing with
  | none => .ok app
  | some w =>
    match (numericIndex w.Filter key).bind (wordAt w.words) with
    | some word => app.accept word
    | none => .ok { app with Listing := some (w.OnFilter (w.Filter ++ [key])) }

/-- Typing several keys, one after the other. -/
def typeKeys (app : App Widget) : List Byte → Except Panic (App Widget)
  | [] => .ok app
  | key :: rest => typeKey app key >>= fun app' => typeKeys app' rest

end lastcmd

namespace ui

/-- Modelled from the spec: one cell of the grid: a single-width character
with its style (package `ui` is not among the sources). -/
structure Cell where
  Text : Byte
  Style : styled.Style
  deriving DecidableEq, Repr

/-- A position in the grid. -/
structure Pos where
  Line : Nat
  Col : Nat
  deriving DecidableEq, Repr

/-- Modelled from the spec: the finished buffer: the width, the lines used, and
the cursor cell (the dot). -/
structure Buffer where
  Width : Nat
  Lines : List (List Cell)
  Dot : Pos
  deriving DecidableEq, Repr

/-- Modelled from the spec: the forward-only builder: the finished lines, the
line being written and the dot. -/
structure BufferBuilder where
  Width : Nat
  Done : List (List Cell)
  Cur : List Cell
  Dot : Pos
  deriving DecidableEq, Repr

/-- Modelled from the spec: `NewBufferBuilder(width)`, an empty builder. -/
def NewBufferBuilder (width : Nat) : BufferBuilder :=
  { Width := width, Done := [], Cur := [], Dot := { Line := 0, Col := 0 } }

/-- Modelled from the spec: `Newline()` starts a new line. -/
def BufferBuilder.Newline (b : BufferBuilder) : BufferBuilder :=
  { b with Done := b.Done ++ [b.Cur], Cur := [] }

/-- Modelled from the spec: writing one cell; "a write that would exceed the
configured width starts a new line". -/
def BufferBuilder.writeCell (b : BufferBuilder) (c : Cell) : BufferBuilder :=
  let b := if b.Cur.length + 1 > b.Width then b.Newline else b
  { b with Cur := b.Cur ++ [c] }

/-- Modelled from the spec: `WriteString(text, style)` writes the text cell by
cell in one style. -/
def BufferBuilder.WriteString (b : BufferBuilder) (text : GoString) (style : styled.Style) :
    BufferBuilder :=
  text.foldl (fun b ch => b.writeCell { Text := ch, Style := style }) b

/-- Modelled from the spec: `WritePlain(s)` writes unstyled text. -/
def BufferBuilder.WritePlain (b : BufferBuilder) (text : GoString) : BufferBuilder :=
  b.WriteString text []

/-- Modelled from the spec: `WriteStyled(t)` writes the segments of a styled
text in order, each in its style. -/
def BufferBuilder.WriteStyled (b : BufferBuilder) (t : styled.Text) : BufferBuilder :=
  t.foldl (fun b seg => b.WriteString seg.Text seg.Style) b

/-- Modelled from the spec: `SetDotHere()` puts the dot at the current writing
position. -/
def BufferBuilder.SetDotHere (b : BufferBuilder) : BufferBuilder :=
  { b with Dot := { Line := b.Done.length, Col := b.Cur.length } }

/-- Modelled from the spec: `Buffer()` finishes the builder. -/
def BufferBuilder.Buffer (b : BufferBuilder) : Buffer :=
  { Width := b.Width, Lines := b.Done ++ [b.Cur], Dot := b.Dot }

/-- All cells written so far, row after row. -/
def BufferBuilder.written (b : BufferBuilder) : List Cell :=
  (b.Done ++ [b.Cur]).flatten

/-- The cells of a text in one style. -/
def cells (text : GoString) (style : styled.Style) : List Cell :=
  text.map (fun ch => { Text := ch, Style := style })

end ui

namespace layout

open ui

/-- Modelled from the spec: one line of a listing, "optionally flagged
selected" (in Go the marker `Selected` follows the line in the argument
list). -/
structure Line where
  Text : GoString
  Selected : Bool
  deriving DecidableEq, Repr

/-- Modelled from the spec: the text written for a selected line: the line
"right-padded with spaces to the full render width". -/
def padded (width : Nat) (text : GoString) : GoString :=
  text ++ List.replicate (width - text.length) (32 : Byte)

/-- Modelled from the spec: writing one listing line on a row of its own: a
selected line padded and in inverse style, any other line as it is. -/
def writeLine (b : BufferBuilder) (line : Line) : BufferBuilder :=
  if line.Selected then b.Newline.WriteString (padded b.Width line.Text) ["inverse"]
  else b.Newline.WritePlain line.Text

/-- Modelled from the spec: `WriteListing(b, name, filter, lines...)`
(section 4.4): the mode line `ModeLine(name, true)`, here the parameter
`modeLine`, then the filter text with the dot right after it, then the lines
in order. -/
def WriteListing (b : BufferBuilder) (modeLine : styled.Text) (filter : GoString)
    (lines : List Line) : BufferBuilder :=
  lines.foldl writeLine ((b.WriteStyled modeLine).WritePlain filter).SetDotHere

/-- The number of cells of a styled text. -/
def textWidth (t : styled.Text) : Nat :=
  (t.map (fun seg => seg.Text.length)).sum

/-- The cells of a styled text. -/
def textCells (t : styled.Text) : List Cell :=
  (t.map (fun seg => cells seg.Text seg.Style)).flatten

/-- The row expected for a listing line at width `w`. -/
def row (w : Nat) (line : Line) : List Cell :=
  if line.Selected then cells (padded w line.Text) ["inverse"] else cells line.Text []

end layout

/-! ## Properties of `InsertAtDot` -/

namespace codearea

theorem sliceTo_ok {s : GoString} {i : Int} (h0 : 0 ≤ i) (h1 : i ≤ (s.length : Int)) :
    sliceTo s i = .ok (s.take i.toNat) := by
  simp [sliceTo, h0, h1]

theorem sliceFrom_ok {s : GoString} {i : Int} (h0 : 0 ≤ i) (h1 : i ≤ (s.length : Int)) :
    sliceFrom s i = .ok (s.drop i.toNat) := by
  simp [sliceFrom, h0, h1]

theorem sliceTo_error {s : GoString} {i : Int} (h : ¬ (0 ≤ i ∧ i ≤ (s.length : Int))) :
    sliceTo s i = .error (.sliceBounds i s.length) := by
  simp only [sliceTo, if_neg h]

theorem InsertAtDot_eq_ok {c : CodeBuffer} (text : GoString) (h : c.WellFormed) :
    c.InsertAtDot text = .ok
      { Content := c.Content.take c.Dot.toNat ++ text ++ c.Content.drop c.Dot.toNat,
        Dot := c.Dot + (text.length : Int) } := by
  obtain ⟨h0, h1⟩ := h
  simp only [CodeBuffer.InsertAtDot, sliceTo_ok h0 h1, sliceFrom_ok h0 h1]
  rfl

theorem InsertAtDot_eq_error {c : CodeBuffer} (text : GoString) (h : ¬ c.WellFormed) :
    c.InsertAtDot text = .error (.sliceBounds c.Dot c.Content.length) := by
  simp only [CodeBuffer.InsertAtDot, sliceTo_error h]
  rfl

/-- C1: for a code buffer with `0 <= Dot <= len(Content)`, `InsertAtDot(text)`
returns normally, the new content is the old content up to the dot, then
`text`, then the old content from the dot on, and the new dot is the old dot
plus the byte length of `text`. -/
theorem InsertAtDot_spec (c : CodeBuffer) (text : GoString)
    (h0 : 0 ≤ c.Dot) (h1 : c.Dot ≤ (c.Content.length : Int)) :
    ∃ c', c.InsertAtDot text = .ok c' ∧
      c'.Content = c.Content.take c.Dot.toNat ++ text ++ c.Content.drop c.Dot.toNat ∧
      c'.Dot = c.Dot + (text.length : Int) ∧
      (∀ before after : GoString, c.Content = before ++ after →
        (before.length : Int) = c.Dot → c'.Content = before ++ text ++ after) := by
  refine ⟨_, InsertAtDot_eq_ok text ⟨h0, h1⟩, rfl, rfl, ?_⟩
  intro before after hc hlen
  have hn : c.Dot.toNat = before.length := by omega
  simp only [hn, hc, List.take_left', List.drop_left']

theorem InsertAtDot_spec_witness :
    (0 : Int) ≤ 2 ∧ (2 : Int) ≤ ((ascii "abcd").length : Int) ∧
    ∃ c', (CodeBuffer.mk (ascii "abcd") 2).InsertAtDot (ascii "XY") = .ok c' ∧
      c'.Content = ascii "abXYcd" ∧ c'.Dot = 4 := by
  obtain ⟨c', h, hc, hd, -⟩ :=
    InsertAtDot_spec (CodeBuffer.mk (ascii "abcd") 2) (ascii "XY") (by decide) (by decide)
  exact ⟨by decide, by decide, c', h, by rw [hc]; decide, by rw [hd]; decide⟩

theorem take_insert (content s : GoString) (d : Nat) (hd : d ≤ content.length) :
    List.take d (List.take d content ++ s ++ List.drop d content) = List.take d content := by
  have hl : (List.take d content).length = d := by
    simp only [List.length_take]; omega
  rw [List.append_assoc]
  exact List.take_left' hl

theorem drop_insert (content s : GoString) (d : Nat) (hd : d ≤ content.length) :
    List.drop (d + s.length) (List.take d content ++ s ++ List.drop d content)
      = List.drop d content := by
  have hl : (List.take d content ++ s).length = d + s.length := by
    simp only [List.length_append, List.length_take]; omega
  exact List.drop_left' hl

/-- C2: round trip.  For a code buffer with `0 <= Dot <= len(Content)` and any
string `s`, `InsertAtDot(s)` followed by removing the `len(s)` bytes that end
at the new dot (moving the dot back by `len(s)`) gives back the original
content and the original dot. -/
theorem InsertAtDot_roundtrip (c : CodeBuffer) (s : GoString)
    (h0 : 0 ≤ c.Dot) (h1 : c.Dot ≤ (c.Content.length : Int)) :
    (c.InsertAtDot s >>= fun c' => c'.removeBeforeDot s.length) = .ok c := by
  rw [InsertAtDot_eq_ok s ⟨h0, h1⟩]
  obtain ⟨content, dot⟩ := c
  simp only at h0 h1
  obtain ⟨d, rfl⟩ := Int.eq_ofNat_of_zero_le h0
  have hd : d ≤ content.length := by omega
  have hlen : (List.take d content ++ s ++ List.drop d content).length
      = content.length + s.length := by
    simp only [List.length_append, List.length_take, List.length_drop]; omega
  show CodeBuffer.removeBeforeDot _ s.length = _
  simp only [CodeBuffer.removeBeforeDot, Int.toNat_ofNat]
  rw [sliceTo_ok (by omega) (by rw [hlen]; push_cast; omega),
    sliceFrom_ok (by omega) (by rw [hlen]; push_cast; omega)]
  have e1 : ((d : Int) + (s.length : Int) - (s.length : Int)).toNat = d := by omega
  have e2 : ((d : Int) + (s.length : Int)).toNat = d + s.length := by omega
  have e4 : (d : Int) + (s.length : Int) - (s.length : Int) = (d : Int) := by omega
  show Except.ok _ = _
  rw [e1, e2, e4, take_insert content s d hd, drop_insert content s d hd,
    List.take_append_drop]

theorem InsertAtDot_roundtrip_witness :
    (0 : Int) ≤ 2 ∧ (2 : Int) ≤ ((ascii "abcd").length : Int) ∧
    ((CodeBuffer.mk (ascii "abcd") 2).InsertAtDot (ascii "XY") >>=
      fun c' => c'.removeBeforeDot (ascii "XY").length) = .ok (CodeBuffer.mk (ascii "abcd") 2) :=
  ⟨by decide, by decide,
    InsertAtDot_roundtrip (CodeBuffer.mk (ascii "abcd") 2) (ascii "XY") (by decide) (by decide)⟩

/-- C3: `InsertAtDot` preserves the invariant `0 <= Dot <= len(Content)`: on a
buffer that satisfies it the call returns normally, the new buffer satisfies
it too, and the new content is exactly `len(text)` bytes longer. -/
theorem InsertAtDot_preserves_invariant (c : CodeBuffer) (text : GoString)
    (h : c.WellFormed) :
    ∃ c', c.InsertAtDot text = .ok c' ∧ c'.WellFormed ∧
      c'.Content.length = c.Content.length + text.length := by
  refine ⟨_, InsertAtDot_eq_ok text h, ?_, ?_⟩
  · obtain ⟨h0, h1⟩ := h
    simp only [CodeBuffer.WellFormed, List.length_append, List.length_take, List.length_drop]
    omega
  · obtain ⟨h0, h1⟩ := h
    simp only [List.length_append, List.length_take, List.length_drop]
    omega

theorem InsertAtDot_preserves_invariant_witness :
    (CodeBuffer.mk (ascii "abcd") 4).WellFormed ∧
    ∃ c', (CodeBuffer.mk (ascii "abcd") 4).InsertAtDot (ascii "!") = .ok c' ∧ c'.WellFormed ∧
      c'.Content.length = (ascii "abcd").length + (ascii "!").length :=
  ⟨by decide,
    InsertAtDot_preserves_invariant (CodeBuffer.mk (ascii "abcd") 4) (ascii "!") (by decide)⟩

/-- C6, as claimed, fails: with `Dot` past the end of the content, or negative,
`InsertAtDot` panics on the slice expression instead of clamping the dot. -/
theorem InsertAtDot_out_of_range_panics :
    (CodeBuffer.mk (ascii "ab") 3).InsertAtDot (ascii "x") = .error (.sliceBounds 3 2) ∧
    (CodeBuffer.mk (ascii "ab") (-1)).InsertAtDot (ascii "x") = .error (.sliceBounds (-1) 2) := by
  constructor <;> rfl

/-- C6, amended: `InsertAtDot` returns normally exactly when
`0 <= Dot <= len(Content)`; for every other `Dot` it panics with a slice
bounds failure on `Content[:Dot]` and nothing is clamped. -/
theorem InsertAtDot_ok_iff_in_range (c : CodeBuffer) (text : GoString) :
    ((∃ c', c.InsertAtDot text = .ok c') ↔ (0 ≤ c.Dot ∧ c.Dot ≤ (c.Content.length : Int))) ∧
    (¬ (0 ≤ c.Dot ∧ c.Dot ≤ (c.Content.length : Int)) →
      c.InsertAtDot text = .error (.sliceBounds c.Dot c.Content.length)) := by
  refine ⟨⟨?_, fun h => ⟨_, InsertAtDot_eq_ok text h⟩⟩, fun h => InsertAtDot_eq_error text h⟩
  rintro ⟨c', hc⟩
  by_contra h
  rw [InsertAtDot_eq_error text h] at hc
  cases hc

theorem lock_Mutex (wait : State → Option State) (s locked : State)
    (h : s.lock wait = some locked) : locked.Mutex = .writeLocked := by
  unfold State.lock at h
  cases hm : s.Mutex with
  | unlocked =>
    simp only [hm, RWMutex.Lock, Option.some.injEq] at h
    rw [← h]
  | readLocked n =>
    simp only [hm, RWMutex.Lock, Option.map_eq_some'] at h
    obtain ⟨s0, -, rfl⟩ := h
    rfl
  | writeLocked =>
    simp only [hm, RWMutex.Lock, Option.map_eq_some'] at h
    obtain ⟨s0, -, rfl⟩ := h
    rfl

theorem lock_of_unlocked (wait : State → Option State) (s : State) (h : s.Mutex = .unlocked) :
    s.lock wait = some { s with Mutex := .writeLocked } := by
  simp only [State.lock, h, RWMutex.Lock]

theorem lock_of_held (wait : State → Option State) (s s0 : State) (h : s.Mutex ≠ .unlocked)
    (hw : wait s = some s0) : s.lock wait = some { s0 with Mutex := .writeLocked } := by
  unfold State.lock
  cases hm : s.Mutex with
  | unlocked => exact absurd hm h
  | readLocked n => simp only [RWMutex.Lock, hw, Option.map_some']
  | writeLocked => simp only [RWMutex.Lock, hw, Option.map_some']

theorem deferredUnlock_returned (e : Exit State) (s' : State) :
    deferredUnlock e = .returned s' ↔
      ∃ s1, e = .returned s1 ∧ s1.Mutex = .writeLocked ∧ s' = { s1 with Mutex := .unlocked } := by
  cases e with
  | returned s1 =>
    cases hm : s1.Mutex with
    | writeLocked =>
      simp only [deferredUnlock, RWMutex.Unlock, hm]
      constructor
      · intro h
        injection h with h1
        subst h1
        exact ⟨s1, rfl, hm, rfl⟩
      · rintro ⟨s2, h1, _, rfl⟩
        injection h1 with h1
        subst h1
        rfl
    | unlocked =>
      simp only [deferredUnlock, RWMutex.Unlock, hm]
      constructor
      · intro h
        cases h
      · rintro ⟨s2, h1, h2, _⟩
        injection h1 with h1
        subst h1
        rw [hm] at h2
        cases h2
    | readLocked n =>
      simp only [deferredUnlock, RWMutex.Unlock, hm]
      constructor
      · intro h
        cases h
      · rintro ⟨s2, h1, h2, _⟩
        injection h1 with h1
        subst h1
        rw [hm] at h2
        cases h2
  | panicked s1 p =>
    constructor
    · intro h
      simp only [deferredUnlock] at h
      split at h <;> cases h
    · rintro ⟨s2, h1, _⟩
      cases h1
  | blocked =>
    constructor
    · intro h; cases h
    · rintro ⟨s2, h1, _⟩; cases h1
  | fatal =>
    constructor
    · intro h; cases h
    · rintro ⟨s2, h1, _⟩; cases h1

theorem deferredUnlock_panicked (e : Exit State) (s' : State) (p : Panic) :
    deferredUnlock e = .panicked s' p ↔
      ∃ s1, e = .panicked s1 p ∧ s1.Mutex = .writeLocked ∧
        s' = { s1 with Mutex := .unlocked } := by
  cases e with
  | panicked s1 q =>
    cases hm : s1.Mutex with
    | writeLocked =>
      simp only [deferredUnlock, RWMutex.Unlock, hm]
      constructor
      · intro h
        injection h with h1 h2
        subst h1 h2
        exact ⟨s1, rfl, hm, rfl⟩
      · rintro ⟨s2, h1, _, rfl⟩
        injection h1 with h1 h2
        subst h1 h2
        rfl
    | unlocked =>
      simp only [deferredUnlock, RWMutex.Unlock, hm]
      constructor
      · intro h
        cases h
      · rintro ⟨s2, h1, h2, _⟩
        injection h1 with h1
        subst h1
        rw [hm] at h2
        cases h2
    | readLocked n =>
      simp only [deferredUnlock, RWMutex.Unlock, hm]
      constructor
      · intro h
        cases h
      · rintro ⟨s2, h1, h2, _⟩
        injection h1 with h1
        subst h1
        rw [hm] at h2
        cases h2
  | returned s1 =>
    constructor
    · intro h
      simp only [deferredUnlock] at h
      split at h <;> cases h
    · rintro ⟨s2, h1, _⟩
      cases h1
  | blocked =>
    constructor
    · intro h; cases h
    · rintro ⟨s2, h1, _⟩; cases h1
  | fatal =>
    constructor
    · intro h; cases h
    · rintro ⟨s2, h1, _⟩; cases h1

/-- C5: `MutateCodeBuffer` takes the write lock, applies `f` and releases the
lock on every exit path, for every mutator `f`, also one that reaches the
mutex itself.  `Lock` returns with the write lock held (at once on a free
mutex, after the other holders have released it otherwise) and `f` is started
in that locked state.  The call returns (unwinds with panic `p`) exactly when
`f`, started in the locked state, returns (panics with `p`) with the write lock
still held, and the state left behind is the one `f` left with the mutex
unlocked: in both cases the lock is not held afterwards.  For a mutator that
only touches the buffer, the call ends, and the stored buffer is what the
mutator made of the previous buffer, which on a normal return is its result,
nothing else changing. -/
theorem MutateCodeBuffer_releases_lock (wait : State → Option State) (s : State)
    (f : Mutator) :
    (s.Mutex = .unlocked → s.lock wait = some { s with Mutex := .writeLocked }) ∧
    (∀ s0, s.Mutex ≠ .unlocked → wait s = some s0 →
      s.lock wait = some { s0 with Mutex := .writeLocked }) ∧
    (∀ locked, s.lock wait = some locked → locked.Mutex = .writeLocked) ∧
    (s.lock wait = none → s.MutateCodeBuffer wait f = .blocked) ∧
    (∀ s', s.MutateCodeBuffer wait f = .returned s' ↔
      ∃ locked s1, s.lock wait = some locked ∧ f locked = .returned s1 ∧
        s1.Mutex = .writeLocked ∧ s' = { s1 with Mutex := .unlocked }) ∧
    (∀ s' p, s.MutateCodeBuffer wait f = .panicked s' p ↔
      ∃ locked s1, s.lock wait = some locked ∧ f locked = .panicked s1 p ∧
        s1.Mutex = .writeLocked ∧ s' = { s1 with Mutex := .unlocked }) ∧
    (∀ s', s.MutateCodeBuffer wait f = .returned s' → s'.Mutex = .unlocked) ∧
    (∀ s' p, s.MutateCodeBuffer wait f = .panicked s' p → s'.Mutex = .unlocked) ∧
    (∀ (g : CodeBuffer → BufferResult) (s0 : State),
      (s.Mutex = .unlocked ∧ s0 = s) ∨ (s.Mutex ≠ .unlocked ∧ wait s = some s0) →
      ((g s0.CodeBuffer).panic = none →
        s.MutateCodeBuffer wait (onBuffer g)
          = .returned { s0 with Mutex := .unlocked, CodeBuffer := (g s0.CodeBuffer).buf }) ∧
      (∀ p, (g s0.CodeBuffer).panic = some p →
        s.MutateCodeBuffer wait (onBuffer g)
          = .panicked { s0 with Mutex := .unlocked, CodeBuffer := (g s0.CodeBuffer).buf } p)) := by
  have hret : ∀ (f : Mutator) (s' : State), s.MutateCodeBuffer wait f = .returned s' ↔
      ∃ locked s1, s.lock wait = some locked ∧ f locked = .returned s1 ∧
        s1.Mutex = .writeLocked ∧ s' = { s1 with Mutex := .unlocked } := by
    intro f s'
    unfold State.MutateCodeBuffer
    cases hl : s.lock wait with
    | none => simp
    | some locked =>
      simp only [deferredUnlock_returned, Option.some.injEq]
      constructor
      · rintro ⟨s1, h1, h2, h3⟩
        exact ⟨locked, s1, rfl, h1, h2, h3⟩
      · rintro ⟨l, s1, rfl, h1, h2, h3⟩
        exact ⟨s1, h1, h2, h3⟩
  have hpan : ∀ (f : Mutator) (s' : State) (p : Panic),
      s.MutateCodeBuffer wait f = .panicked s' p ↔
      ∃ locked s1, s.lock wait = some locked ∧ f locked = .panicked s1 p ∧
        s1.Mutex = .writeLocked ∧ s' = { s1 with Mutex := .unlocked } := by
    intro f s' p
    unfold State.MutateCodeBuffer
    cases hl : s.lock wait with
    | none => simp
    | some locked =>
      simp only [deferredUnlock_panicked, Option.some.injEq]
      constructor
      · rintro ⟨s1, h1, h2, h3⟩
        exact ⟨locked, s1, rfl, h1, h2, h3⟩
      · rintro ⟨l, s1, rfl, h1, h2, h3⟩
        exact ⟨s1, h1, h2, h3⟩
  refine ⟨lock_of_unlocked wait s, fun s0 h hw => lock_of_held wait s s0 h hw,
    lock_Mutex wait s, ?_, hret f, hpan f, ?_, ?_, ?_⟩
  · intro h
    simp only [State.MutateCodeBuffer, h]
  · intro s' h
    obtain ⟨_, s1, _, _, _, rfl⟩ := (hret f s').mp h
    rfl
  · intro s' p h
    obtain ⟨_, s1, _, _, _, rfl⟩ := (hpan f s' p).mp h
    rfl
  · intro g s0 hs
    have hl : s.lock wait = some { s0 with Mutex := .writeLocked } := by
      rcases hs with ⟨hm, rfl⟩ | ⟨hm, hw⟩
      · exact lock_of_unlocked wait s0 hm
      · exact lock_of_held wait s s0 hm hw
    refine ⟨fun hp => ?_, fun p hp => ?_⟩
    · exact (hret (onBuffer g) _).mpr ⟨{ s0 with Mutex := .writeLocked },
        { s0 with Mutex := .writeLocked, CodeBuffer := (g s0.CodeBuffer).buf }, hl,
        by simp only [onBuffer, hp], rfl, rfl⟩
    · exact (hpan (onBuffer g) _ p).mpr ⟨{ s0 with Mutex := .writeLocked },
        { s0 with Mutex := .writeLocked, CodeBuffer := (g s0.CodeBuffer).buf }, hl,
        by simp only [onBuffer, hp], rfl, rfl⟩

theorem MutateCodeBuffer_releases_lock_witness :
    (State.mk .unlocked ⟨ascii "ab", 1⟩ ⟨0, 0, []⟩ [] []).MutateCodeBuffer (fun _ => none)
        (insertMutator (ascii "X"))
      = .returned (State.mk .unlocked ⟨ascii "aXb", 2⟩ ⟨0, 0, []⟩ [] []) ∧
    (State.mk .unlocked ⟨ascii "ab", 5⟩ ⟨0, 0, []⟩ [] []).MutateCodeBuffer (fun _ => none)
        (insertMutator (ascii "X"))
      = .panicked (State.mk .unlocked ⟨ascii "ab", 5⟩ ⟨0, 0, []⟩ [] []) (.sliceBounds 5 2) ∧
    (State.mk (.readLocked 0) ⟨ascii "ab", 1⟩ ⟨0, 0, []⟩ [] []).MutateCodeBuffer
        (fun s => some { s with Mutex := .unlocked }) (insertMutator (ascii "X"))
      = .returned (State.mk .unlocked ⟨ascii "aXb", 2⟩ ⟨0, 0, []⟩ [] []) := by
  refine ⟨?_, ?_, ?_⟩
  · exact ((MutateCodeBuffer_releases_lock (fun _ => none)
      (State.mk .unlocked ⟨ascii "ab", 1⟩ ⟨0, 0, []⟩ [] []) (insertMutator (ascii "X"))).2.2.2.2.1
      _).mpr ⟨State.mk .writeLocked ⟨ascii "ab", 1⟩ ⟨0, 0, []⟩ [] [],
        State.mk .writeLocked ⟨ascii "aXb", 2⟩ ⟨0, 0, []⟩ [] [], by decide, by decide,
        by decide, by decide⟩
  · exact ((MutateCodeBuffer_releases_lock (fun _ => none)
      (State.mk .unlocked ⟨ascii "ab", 5⟩ ⟨0, 0, []⟩ [] []) (insertMutator (ascii "X"))).2.2.2.2.2.1
      _ _).mpr ⟨State.mk .writeLocked ⟨ascii "ab", 5⟩ ⟨0, 0, []⟩ [] [],
        State.mk .writeLocked ⟨ascii "ab", 5⟩ ⟨0, 0, []⟩ [] [], by decide, by decide,
        by decide, by decide⟩
  · exact ((MutateCodeBuffer_releases_lock (fun s => some { s with Mutex := .unlocked })
      (State.mk (.readLocked 0) ⟨ascii "ab", 1⟩ ⟨0, 0, []⟩ [] [])
      (insertMutator (ascii "X"))).2.2.2.2.1
      _).mpr ⟨State.mk .writeLocked ⟨ascii "ab", 1⟩ ⟨0, 0, []⟩ [] [],
        State.mk .writeLocked ⟨ascii "aXb", 2⟩ ⟨0, 0, []⟩ [] [], by decide, by decide,
        by decide, by decide⟩

/-- The mutator is started with the write lock held: a mutator that looks at
the mutex finds it locked, on a free mutex and after waiting for a holder. -/
theorem MutateCodeBuffer_runs_locked :
    (State.mk .unlocked ⟨ascii "ab", 1⟩ ⟨0, 0, []⟩ [] []).MutateCodeBuffer (fun _ => none)
        probeMutator
      = .returned (State.mk .unlocked ⟨ascii "ab", 1⟩ ⟨0, 0, []⟩ [] []) ∧
    (State.mk .writeLocked ⟨ascii "ab", 1⟩ ⟨0, 0, []⟩ [] []).MutateCodeBuffer
        (fun s => some { s with Mutex := .unlocked, CodeBuffer := ⟨ascii "abc", 3⟩ }) probeMutator
      = .returned (State.mk .unlocked ⟨ascii "abc", 3⟩ ⟨0, 0, []⟩ [] []) ∧
    (State.mk .writeLocked ⟨ascii "ab", 1⟩ ⟨0, 0, []⟩ [] []).MutateCodeBuffer (fun _ => none)
        probeMutator = .blocked := by
  decide

/-- A mutator that releases the mutex itself makes the deferred `Unlock` fail
with the fatal error: the call neither returns nor unwinds. -/
theorem MutateCodeBuffer_unlocking_mutator_fatal :
    (State.mk .unlocked ⟨ascii "ab", 1⟩ ⟨0, 0, []⟩ [] []).MutateCodeBuffer (fun _ => none)
        unlockingMutator = .fatal := by
  decide

end codearea

namespace cliedit

theorem beforeReadlineLoop_acc (hook : List Value) (i : Int) (log : List Effect) :
    beforeReadlineLoop hook i log = log ++ beforeReadlineLoop hook i [] := by
  induction hook generalizing i log with
  | nil => simp [beforeReadlineLoop]
  | cons v rest ih =>
    cases v with
    | callable fn =>
      simp only [beforeReadlineLoop, List.nil_append]
      rw [ih, ih (i + 1) [_], List.append_assoc]
    | other r =>
      simp only [beforeReadlineLoop, List.nil_append]
      rw [ih, ih (i + 1) [_], List.append_assoc]

theorem beforeReadlineLoop_cons (v : Value) (rest : List Value) (i : Int) :
    beforeReadlineLoop (v :: rest) i []
      = hookEffect "$before-readline" [] (i + 1) v :: beforeReadlineLoop rest (i + 1) [] := by
  cases v with
  | callable fn =>
    simp only [beforeReadlineLoop, List.nil_append, hookEffect]
    rw [beforeReadlineLoop_acc]; simp [String.append_assoc]
  | other r =>
    simp only [beforeReadlineLoop, List.nil_append, hookEffect]
    rw [beforeReadlineLoop_acc]; simp [String.append_assoc]

theorem afterReadlineLoop_acc (code : GoString) (hook : List Value) (i : Int)
    (log : List Effect) :
    afterReadlineLoop code hook i log = log ++ afterReadlineLoop code hook i [] := by
  induction hook generalizing i log with
  | nil => simp [afterReadlineLoop]
  | cons v rest ih =>
    cases v with
    | callable fn =>
      simp only [afterReadlineLoop, List.nil_append]
      rw [ih, ih (i + 1) [_], List.append_assoc]
    | other r =>
      simp only [afterReadlineLoop, List.nil_append]
      rw [ih, ih (i + 1) [_], List.append_assoc]

theorem afterReadlineLoop_cons (code : GoString) (v : Value) (rest : List Value) (i : Int) :
    afterReadlineLoop code (v :: rest) i []
      = hookEffect "$after-readline" [code] (i + 1) v
        :: afterReadlineLoop code rest (i + 1) [] := by
  cases v with
  | callable fn =>
    simp only [afterReadlineLoop, List.nil_append, hookEffect]
    rw [afterReadlineLoop_acc]; simp [String.append_assoc]
  | other r =>
    simp only [afterReadlineLoop, List.nil_append, hookEffect]
    rw [afterReadlineLoop_acc]; simp [String.append_assoc]

/-- A run `run l i` that handles the entries one after the other, the entry
after counter value `i` being number `i + 1`, has one effect per entry. -/
theorem run_length (hookName : String) (args : List GoString)
    (run : List Value → Int → List Effect)
    (hnil : ∀ i, run [] i = [])
    (hcons : ∀ v rest i, run (v :: rest) i = hookEffect hookName args (i + 1) v :: run rest (i + 1))
    (l : List Value) (i : Int) : (run l i).length = l.length := by
  induction l generalizing i with
  | nil => simp [hnil]
  | cons v rest ih => simp [hcons, ih]

theorem run_getElem? (hookName : String) (args : List GoString)
    (run : List Value → Int → List Effect)
    (hcons : ∀ v rest i, run (v :: rest) i = hookEffect hookName args (i + 1) v :: run rest (i + 1))
    (l : List Value) (i : Int) (k : Nat) (v : Value) (hv : l[k]? = some v) :
    (run l i)[k]? = some (hookEffect hookName args (i + 1 + (k : Int)) v) := by
  induction l generalizing i k with
  | nil => simp at hv
  | cons w rest ih =>
    rw [hcons]
    cases k with
    | zero =>
      simp only [List.getElem?_cons_zero, Option.some.injEq] at hv
      subst hv
      simp
    | succ k =>
      simp only [List.getElem?_cons_succ] at hv
      simp only [List.getElem?_cons_succ]
      rw [ih (i + 1) k hv]
      congr 2
      push_cast
      ring

theorem run_calls (hookName : String) (args : List GoString)
    (run : List Value → Int → List Effect)
    (hnil : ∀ i, run [] i = [])
    (hcons : ∀ v rest i, run (v :: rest) i = hookEffect hookName args (i + 1) v :: run rest (i + 1))
    (l : List Value) (i : Int) :
    calls (run l i) = (callables l).map (fun fn => (fn, args)) := by
  induction l generalizing i with
  | nil => simp [hnil, calls, callables]
  | cons v rest ih =>
    rw [hcons]
    have := ih (i + 1)
    cases v with
    | callable fn =>
      simp only [calls, callables, hookEffect, List.filterMap_cons, List.map_cons] at this ⊢
      rw [this]
    | other r =>
      simp only [calls, callables, hookEffect, List.filterMap_cons] at this ⊢
      rw [this]

theorem run_complaints (hookName : String) (args : List GoString)
    (run : List Value → Int → List Effect)
    (hnil : ∀ i, run [] i = [])
    (hcons : ∀ v rest i, run (v :: rest) i = hookEffect hookName args (i + 1) v :: run rest (i + 1))
    (l : List Value) (i : Int) :
    (complaints (run l i)).length + (callables l).length = l.length := by
  induction l generalizing i with
  | nil => simp [hnil, complaints, callables]
  | cons v rest ih =>
    rw [hcons]
    have := ih (i + 1)
    cases v with
    | callable fn =>
      simp only [complaints, callables, hookEffect, List.filterMap_cons, List.length_cons] at this ⊢
      omega
    | other r =>
      simp only [complaints, callables, hookEffect, List.filterMap_cons, List.length_cons] at this ⊢
      omega

/-- C4: running the before-readline or the after-readline hook over any list of
callable and non-callable entries handles every entry, in list order: the
effect at position `k` is one call of the entry when it is callable and one
diagnostic `$<hook>[k] not function` when it is not, so the calls made are
exactly the callable entries, each once and in list order, whatever
non-callable entries stand between them.  A before-readline callable is called
with no arguments, an after-readline callable with the committed code as its
single argument. -/
theorem hooks_call_exactly_the_callables (hook : List Value) (code : GoString) :
    ((BeforeReadline hook).length = hook.length ∧
      (∀ (k : Nat) (v : Value), hook[k]? = some v →
        (BeforeReadline hook)[k]? = some (hookEffect "$before-readline" [] (k : Int) v)) ∧
      calls (BeforeReadline hook) = (callables hook).map (fun fn => (fn, [])) ∧
      (complaints (BeforeReadline hook)).length + (callables hook).length = hook.length) ∧
    ((AfterReadline hook code).length = hook.length ∧
      (∀ (k : Nat) (v : Value), hook[k]? = some v →
        (AfterReadline hook code)[k]? = some (hookEffect "$after-readline" [code] (k : Int) v)) ∧
      calls (AfterReadline hook code) = (callables hook).map (fun fn => (fn, [code])) ∧
      (complaints (AfterReadline hook code)).length + (callables hook).length = hook.length) := by
  have bn : ∀ i : Int, beforeReadlineLoop [] i [] = [] := fun i => rfl
  have bc := fun v rest i => beforeReadlineLoop_cons v rest i
  have an : ∀ i : Int, afterReadlineLoop code [] i [] = [] := fun i => rfl
  have ac := fun v rest i => afterReadlineLoop_cons code v rest i
  refine ⟨⟨?_, ?_, ?_, ?_⟩, ⟨?_, ?_, ?_, ?_⟩⟩
  · exact run_length "$before-readline" [] (fun l i => beforeReadlineLoop l i []) bn bc hook (-1)
  · intro k v hv
    have := run_getElem? "$before-readline" [] (fun l i => beforeReadlineLoop l i []) bc
      hook (-1) k v hv
    simpa [BeforeReadline] using this
  · exact run_calls "$before-readline" [] (fun l i => beforeReadlineLoop l i []) bn bc hook (-1)
  · exact run_complaints "$before-readline" [] (fun l i => beforeReadlineLoop l i []) bn bc
      hook (-1)
  · exact run_length "$after-readline" [code] (fun l i => afterReadlineLoop code l i []) an ac
      hook (-1)
  · intro k v hv
    have := run_getElem? "$after-readline" [code] (fun l i => afterReadlineLoop code l i []) ac
      hook (-1) k v hv
    simpa [AfterReadline] using this
  · exact run_calls "$after-readline" [code] (fun l i => afterReadlineLoop code l i []) an ac
      hook (-1)
  · exact run_complaints "$after-readline" [code] (fun l i => afterReadlineLoop code l i [])
      an ac hook (-1)

end cliedit

/-! ## The addons -/

/-- C7: when the store cannot supply candidates, starting the history-list or
the last-command addon activates nothing and leaves the base code area as it
is; it only adds one note: `no history store` when no store is configured, and
`db error: ` followed by the message of the error when `AllCmds` / `LastCmd`
fails.  On an application with no pending note the notes are exactly that
one. -/
theorem Start_failure_shows_note (ha : cli.App histlist.Widget) (la : cli.App lastcmd.Widget)
    (wordifier : Option (GoString → List GoString)) (m : GoString) :
    ((histlist.Start ha { Store := none }).Listing = ha.Listing ∧
      (histlist.Start ha { Store := none }).CodeArea = ha.CodeArea ∧
      (histlist.Start ha { Store := none }).Notes = ha.Notes ++ [ascii "no history store"]) ∧
    ((histlist.Start ha { Store := some { AllCmds := .error m } }).Listing = ha.Listing ∧
      (histlist.Start ha { Store := some { AllCmds := .error m } }).CodeArea = ha.CodeArea ∧
      (histlist.Start ha { Store := some { AllCmds := .error m } }).Notes
        = ha.Notes ++ [ascii "db error: " ++ m]) ∧
    ((lastcmd.Start la { Store := none, Wordifier := wordifier }).Listing = la.Listing ∧
      (lastcmd.Start la { Store := none, Wordifier := wordifier }).CodeArea = la.CodeArea ∧
      (lastcmd.Start la { Store := none, Wordifier := wordifier }).Notes
        = la.Notes ++ [ascii "no history store"]) ∧
    ((lastcmd.Start la { Store := some { LastCmd := .error m }, Wordifier := wordifier }).Listing
        = la.Listing ∧
      (lastcmd.Start la { Store := some { LastCmd := .error m }, Wordifier := wordifier }).CodeArea
        = la.CodeArea ∧
      (lastcmd.Start la { Store := some { LastCmd := .error m }, Wordifier := wordifier }).Notes
        = la.Notes ++ [ascii "db error: " ++ m]) ∧
    (histlist.Start { CodeArea := ha.CodeArea, Listing := none, Notes := [] }
        { Store := some { AllCmds := .error (ascii "mock error") } }).Notes
      = [ascii "db error: mock error"] := by
  refine ⟨⟨rfl, rfl, rfl⟩, ⟨rfl, rfl, rfl⟩, ⟨rfl, rfl, rfl⟩, ⟨rfl, rfl, rfl⟩, ?_⟩
  simp only [histlist.Start, cli.App.Notify, List.nil_append]
  decide

namespace histlist

open cli histutil

theorem infix_of_snoc_infix {p t : GoString} {b : Byte} (h : (p ++ [b]) <:+: t) : p <:+: t := by
  obtain ⟨u, v, huv⟩ := h
  exact ⟨u, b :: v, by rw [← huv]; simp⟩

theorem filter_snoc (cmds : List Entry) (p : GoString) (b : Byte) :
    filter cmds (p ++ [b]) = filter (filter cmds p) (p ++ [b]) := by
  simp only [filter, List.filter_filter]
  apply List.filter_congr
  intro e _
  by_cases h : contains e.Text (p ++ [b]) = true
  · have : contains e.Text p = true := by
      simp only [contains, decide_eq_true_eq] at h ⊢
      exact infix_of_snoc_infix h
    simp [h, this]
  · simp [h]

theorem filter_snoc_length_le (cmds : List Entry) (p : GoString) (b : Byte) :
    (filter cmds (p ++ [b])).length ≤ (filter cmds p).length := by
  rw [filter_snoc]
  exact List.length_filter_le _ _

theorem filter_nil (cmds : List Entry) : filter cmds [] = cmds := by
  simp only [filter, contains]
  apply List.filter_eq_self.mpr
  intro e _
  simp

theorem started_typed (cmds : List Entry) : Typed cmds [] (started cmds) := by
  refine ⟨rfl, rfl, ?_, ?_⟩
  · rw [filter_nil]; rfl
  · rw [filter_nil]; rfl

theorem typeKey_typed {cmds : List Entry} {p : GoString} {w : Widget} (b : Byte)
    (h : Typed cmds p w) : Typed cmds (p ++ [b]) (w.typeKey b) := by
  obtain ⟨hall, hfil, _, hsel⟩ := h
  have hle := filter_snoc_length_le cmds p b
  refine ⟨hall, ?_, ?_, ?_⟩
  · simp only [Widget.typeKey, Widget.OnFilter, hfil]
  · simp only [Widget.typeKey, Widget.OnFilter, hfil, hall]
  · simp only [Widget.typeKey, Widget.OnFilter, hfil, hall, hsel, clampSelected]
    split_ifs with hc
    · omega
    · rfl

theorem typeKeys_typed {cmds : List Entry} (keys : GoString) {p : GoString} {w : Widget}
    (h : Typed cmds p w) : Typed cmds (p ++ keys) (w.typeKeys keys) := by
  induction keys generalizing p w with
  | nil => simpa [Widget.typeKeys] using h
  | cons b rest ih =>
    have := ih (typeKey_typed b h)
    simpa [Widget.typeKeys] using this

theorem getLast?_filter {α : Type} (q : α → Bool) (l : List α) (e : α)
    (hl : l.getLast? = some e) (hq : q e = true) : (l.filter q).getLast? = some e := by
  obtain ⟨ys, rfl⟩ := List.getLast?_eq_some_iff.mp hl
  simp [List.filter_append, hq]

/-- C8: after a successful start over the stored entries `cmds`, typing any
filter text shows exactly the entries whose text contains the filter text:
the shown candidates are a subsequence of `cmds` in the original order, each
contains the filter text, and no entry that contains it is left out.  The
selection is on the last shown candidate (none when nothing is shown), so when
the last entry, selected at the start, still matches, it stays selected. -/
theorem histlist_filter_spec (app : App Widget) (cmds : List Entry) (text : GoString) :
    (Start app { Store := some { AllCmds := .ok cmds } }).Listing = some (started cmds) ∧
    ((started cmds).selectedEntry = cmds.getLast?) ∧
    ((started cmds).typeKeys text).Filter = text ∧
    ((started cmds).typeKeys text).Filtered.Sublist cmds ∧
    (∀ e ∈ ((started cmds).typeKeys text).Filtered, text <:+: e.Text) ∧
    (∀ e ∈ cmds, text <:+: e.Text → e ∈ ((started cmds).typeKeys text).Filtered) ∧
    ((started cmds).typeKeys text).Filtered
      = cmds.filter (fun e => decide (text <:+: e.Text)) ∧
    ((started cmds).typeKeys text).Selected
      = (((started cmds).typeKeys text).Filtered.length : Int) - 1 ∧
    ((started cmds).typeKeys text).selectedEntry
      = ((started cmds).typeKeys text).Filtered.getLast? ∧
    (∀ e, cmds.getLast? = some e → text <:+: e.Text →
      ((started cmds).typeKeys text).selectedEntry = some e) := by
  have hT := typeKeys_typed text (started_typed cmds)
  rw [List.nil_append] at hT
  obtain ⟨_, hfil, hfd, hsel⟩ := hT
  have hselEntry : ∀ w : Widget, w.Selected = (w.Filtered.length : Int) - 1 →
      w.selectedEntry = w.Filtered.getLast? := by
    intro w hw
    simp only [Widget.selectedEntry, hw, List.getLast?_eq_getElem?]
    split_ifs with h0
    · congr 1
      omega
    · have : w.Filtered.length = 0 := by omega
      simp [List.length_eq_zero.mp this]
  have hse := hselEntry _ (hsel.trans (by rw [hfd]))
  refine ⟨rfl, ?_, hfil, ?_, ?_, ?_, ?_, ?_, hse, ?_⟩
  · exact hselEntry (started cmds) rfl
  · rw [hfd]; exact List.filter_sublist _
  · intro e he
    rw [hfd] at he
    simpa [filter, contains] using (List.mem_filter.mp he).2
  · intro e he hm
    rw [hfd]
    exact List.mem_filter.mpr ⟨he, by simpa [contains] using hm⟩
  · rw [hfd]; rfl
  · rw [hsel, hfd]
  · intro e hl hm
    rw [hse, hfd]
    exact getLast?_filter _ cmds e hl (by simpa [contains] using hm)

/-- The scenario of `TestStart_OK`: over the entries foo, bar, baz, typing `b`
shows bar and baz, with baz selected. -/
theorem histlist_filter_spec_witness :
    ((started [⟨ascii "foo", 0⟩, ⟨ascii "bar", 1⟩, ⟨ascii "baz", 2⟩]).typeKeys (ascii "b")).Filtered
      = [⟨ascii "bar", 1⟩, ⟨ascii "baz", 2⟩] ∧
    ((started [⟨ascii "foo", 0⟩, ⟨ascii "bar", 1⟩, ⟨ascii "baz", 2⟩]).typeKeys
      (ascii "b")).selectedEntry = some ⟨ascii "baz", 2⟩ := by
  obtain ⟨-, -, -, -, -, -, hf, -, -, hs⟩ := histlist_filter_spec
    { CodeArea := { Content := [], Dot := 0 }, Listing := none, Notes := [] }
    [⟨ascii "foo", 0⟩, ⟨ascii "bar", 1⟩, ⟨ascii "baz", 2⟩] (ascii "b")
  exact ⟨by rw [hf]; decide, hs ⟨ascii "baz", 2⟩ (by decide) (by decide)⟩

end histlist

/-! ## The listing layout -/

namespace layout

open ui

theorem writeCell_fit (b : BufferBuilder) (c : Cell) (h : b.Cur.length + 1 ≤ b.Width) :
    b.writeCell c = { b with Cur := b.Cur ++ [c] } := by
  have : ¬ (b.Cur.length + 1 > b.Width) := by omega
  simp only [BufferBuilder.writeCell, if_neg this]

theorem WriteString_fit (text : GoString) (style : styled.Style) (b : BufferBuilder)
    (h : b.Cur.length + text.length ≤ b.Width) :
    b.WriteString text style = { b with Cur := b.Cur ++ cells text style } := by
  induction text generalizing b with
  | nil => simp [BufferBuilder.WriteString, cells]
  | cons ch rest ih =>
    simp only [List.length_cons] at h
    have h1 : b.Cur.length + 1 ≤ b.Width := by omega
    have step : b.WriteString (ch :: rest) style
        = (b.writeCell { Text := ch, Style := style }).WriteString rest style := rfl
    rw [step, writeCell_fit b _ h1, ih]
    · simp [cells]
    · simp only [List.length_append, List.length_singleton]; omega

theorem WriteStyled_fit (t : styled.Text) (b : BufferBuilder)
    (h : b.Cur.length + textWidth t ≤ b.Width) :
    b.WriteStyled t = { b with Cur := b.Cur ++ textCells t } := by
  induction t generalizing b with
  | nil => simp [BufferBuilder.WriteStyled, textCells]
  | cons seg rest ih =>
    simp only [textWidth, List.map_cons, List.sum_cons] at h
    have step : b.WriteStyled (seg :: rest)
        = (b.WriteString seg.Text seg.Style).WriteStyled rest := rfl
    rw [step, WriteString_fit seg.Text seg.Style b (by omega), ih]
    · simp [textCells]
    · simp only [List.length_append, cells, List.length_map, textWidth]; omega

theorem length_textCells (t : styled.Text) : (textCells t).length = textWidth t := by
  induction t with
  | nil => rfl
  | cons seg rest ih =>
    simp only [textCells, textWidth, List.map_cons, List.flatten_cons, List.length_append,
      List.sum_cons, cells, List.length_map] at ih ⊢
    rw [ih]

theorem length_padded (w : Nat) (text : GoString) (h : text.length ≤ w) :
    (padded w text).length = w := by
  simp only [padded, List.length_append, List.length_replicate]; omega

theorem writeLine_fit (b : BufferBuilder) (line : Line) (h : line.Text.length ≤ b.Width) :
    writeLine b line = { b with Done := b.Done ++ [b.Cur], Cur := row b.Width line } := by
  cases hs : line.Selected with
  | true =>
    have e : writeLine b line
        = b.Newline.WriteString (padded b.Width line.Text) ["inverse"] := by
      simp [writeLine, hs]
    have hfit : b.Newline.Cur.length + (padded b.Width line.Text).length ≤ b.Newline.Width := by
      simp only [BufferBuilder.Newline, List.length_nil, Nat.zero_add]
      rw [length_padded _ _ h]
    rw [e, WriteString_fit _ _ _ hfit]
    simp [BufferBuilder.Newline, row, hs]
  | false =>
    have e : writeLine b line = b.Newline.WritePlain line.Text := by
      simp [writeLine, hs]
    have hfit : b.Newline.Cur.length + line.Text.length ≤ b.Newline.Width := by
      simpa [BufferBuilder.Newline] using h
    rw [e, BufferBuilder.WritePlain, WriteString_fit _ _ _ hfit]
    simp [BufferBuilder.Newline, row, hs]

theorem foldl_writeLine_fit (lines : List Line) (b : BufferBuilder)
    (h : ∀ l ∈ lines, l.Text.length ≤ b.Width) :
    (lines.foldl writeLine b).Buffer =
      { Width := b.Width, Lines := b.Done ++ [b.Cur] ++ lines.map (row b.Width), Dot := b.Dot } := by
  induction lines generalizing b with
  | nil => simp [BufferBuilder.Buffer]
  | cons l rest ih =>
    have hl : l.Text.length ≤ b.Width := h l (List.mem_cons_self _ _)
    rw [List.foldl_cons, writeLine_fit b l hl, ih]
    · simp
    · intro l' hl'
      exact h l' (List.mem_cons_of_mem _ hl')

/-- C9, as claimed, fails for a line wider than the render width: at width 2
the selected line `abc` is written over two rows, three cells in all, and the
second of them is not padded. -/
theorem WriteListing_wide_selected_line :
    (WriteListing (NewBufferBuilder 2) [] [] [{ Text := ascii "abc", Selected := true }]).Buffer.Lines
      = [[], cells (ascii "ab") ["inverse"], cells (ascii "c") ["inverse"]] := by
  decide

theorem writeCell_Width (b : BufferBuilder) (c : Cell) : (b.writeCell c).Width = b.Width := by
  simp only [BufferBuilder.writeCell, BufferBuilder.Newline]
  split_ifs <;> rfl

theorem writeCell_written (b : BufferBuilder) (c : Cell) :
    (b.writeCell c).written = b.written ++ [c] := by
  simp only [BufferBuilder.writeCell, BufferBuilder.Newline, BufferBuilder.written]
  split_ifs <;> simp

theorem WriteString_Width (text : GoString) (style : styled.Style) (b : BufferBuilder) :
    (b.WriteString text style).Width = b.Width := by
  induction text generalizing b with
  | nil => rfl
  | cons ch rest ih =>
    have step : b.WriteString (ch :: rest) style
        = (b.writeCell { Text := ch, Style := style }).WriteString rest style := rfl
    rw [step, ih, writeCell_Width]

theorem WriteString_written (text : GoString) (style : styled.Style) (b : BufferBuilder) :
    (b.WriteString text style).written = b.written ++ cells text style := by
  induction text generalizing b with
  | nil => simp [BufferBuilder.WriteString, cells]
  | cons ch rest ih =>
    have step : b.WriteString (ch :: rest) style
        = (b.writeCell { Text := ch, Style := style }).WriteString rest style := rfl
    rw [step, ih, writeCell_written]
    simp [cells]

theorem WriteStyled_Width (t : styled.Text) (b : BufferBuilder) :
    (b.WriteStyled t).Width = b.Width := by
  induction t generalizing b with
  | nil => rfl
  | cons seg rest ih =>
    have step : b.WriteStyled (seg :: rest)
        = (b.WriteString seg.Text seg.Style).WriteStyled rest := rfl
    rw [step, ih, WriteString_Width]

theorem WriteStyled_written (t : styled.Text) (b : BufferBuilder) :
    (b.WriteStyled t).written = b.written ++ textCells t := by
  induction t generalizing b with
  | nil => simp [BufferBuilder.WriteStyled, textCells]
  | cons seg rest ih =>
    have step : b.WriteStyled (seg :: rest)
        = (b.WriteString seg.Text seg.Style).WriteStyled rest := rfl
    rw [step, ih, WriteString_written]
    simp [textCells]

/-- C9, amended: at render width `w`, when each listing line is at most `w`
cells wide, `WriteListing` on an empty builder first writes the cells of the
mode line followed by the unstyled cells of the filter text and puts the dot
right after them (all on the first row when they fit in `w` cells), and then
writes one row per line in the original order: a selected line in inverse
style, padded on the right with spaces to exactly `w` cells, and any other
line plain and unpadded. -/
theorem WriteListing_spec (w : Nat) (modeLine : styled.Text) (filter : GoString)
    (lines : List Line) (hlines : ∀ l ∈ lines, l.Text.length ≤ w) :
    (WriteListing (NewBufferBuilder w) modeLine filter lines).Buffer =
      { Width := w,
        Lines := (((NewBufferBuilder w).WriteStyled modeLine).WritePlain filter).Buffer.Lines
          ++ lines.map (row w),
        Dot := { Line := (((NewBufferBuilder w).WriteStyled modeLine).WritePlain filter).Done.length,
                 Col := (((NewBufferBuilder w).WriteStyled modeLine).WritePlain filter).Cur.length } } ∧
    (((NewBufferBuilder w).WriteStyled modeLine).WritePlain filter).written
      = textCells modeLine ++ cells filter [] ∧
    (textWidth modeLine + filter.length ≤ w →
      (WriteListing (NewBufferBuilder w) modeLine filter lines).Buffer =
        { Width := w,
          Lines := (textCells modeLine ++ cells filter []) :: lines.map (row w),
          Dot := { Line := 0, Col := textWidth modeLine + filter.length } }) ∧
    ∀ l ∈ lines,
      (l.Selected = true →
        row w l = cells l.Text ["inverse"]
          ++ List.replicate (w - l.Text.length) { Text := 32, Style := ["inverse"] } ∧
        (row w l).length = w) ∧
      (l.Selected = false → row w l = cells l.Text []) := by
  have hW : (((NewBufferBuilder w).WriteStyled modeLine).WritePlain filter).Width = w := by
    rw [BufferBuilder.WritePlain, WriteString_Width, WriteStyled_Width]
    rfl
  have hgen : (WriteListing (NewBufferBuilder w) modeLine filter lines).Buffer =
      { Width := w,
        Lines := (((NewBufferBuilder w).WriteStyled modeLine).WritePlain filter).Buffer.Lines
          ++ lines.map (row w),
        Dot := { Line := (((NewBufferBuilder w).WriteStyled modeLine).WritePlain filter).Done.length,
                 Col := (((NewBufferBuilder w).WriteStyled modeLine).WritePlain filter).Cur.length } } := by
    simp only [WriteListing]
    rw [foldl_writeLine_fit]
    · simp only [BufferBuilder.SetDotHere, BufferBuilder.Buffer, hW]
    · simpa only [BufferBuilder.SetDotHere, hW] using hlines
  refine ⟨hgen, ?_, ?_, ?_⟩
  · rw [BufferBuilder.WritePlain, WriteString_written, WriteStyled_written]
    simp [BufferBuilder.written, NewBufferBuilder]
  · intro hhead
    have h1 : (NewBufferBuilder w).WriteStyled modeLine
        = { NewBufferBuilder w with Cur := textCells modeLine } := by
      rw [WriteStyled_fit]
      · simp [NewBufferBuilder]
      · simp only [NewBufferBuilder, List.length_nil]; omega
    have h2 : ((NewBufferBuilder w).WriteStyled modeLine).WritePlain filter
        = { NewBufferBuilder w with Cur := textCells modeLine ++ cells filter [] } := by
      rw [h1, BufferBuilder.WritePlain, WriteString_fit]
      simp only [NewBufferBuilder, length_textCells]; omega
    rw [hgen, h2]
    simp [BufferBuilder.Buffer, NewBufferBuilder, length_textCells, cells]
  · intro l hl
    refine ⟨fun hs => ⟨?_, ?_⟩, fun hs => ?_⟩
    · simp [row, hs, padded, cells]
    · simp only [row, hs, if_true, cells, List.length_map]
      exact length_padded w l.Text (hlines l hl)
    · simp [row, hs]

theorem WriteListing_spec_witness :
    (∀ l ∈ [Line.mk (ascii "line 1") false, Line.mk (ascii "line 2") true,
        Line.mk (ascii "line 3") false], l.Text.length ≤ 10) ∧
    (WriteListing (NewBufferBuilder 10) [{ Style := ["bold"], Text := ascii " LIST " }] (ascii "f")
        [Line.mk (ascii "line 1") false, Line.mk (ascii "line 2") true,
          Line.mk (ascii "line 3") false]).Buffer =
      { Width := 10,
        Lines := [cells (ascii " LIST ") ["bold"] ++ cells (ascii "f") [],
          cells (ascii "line 1") [], cells (ascii "line 2    ") ["inverse"],
          cells (ascii "line 3") []],
        Dot := { Line := 0, Col := 7 } } := by
  have h := (WriteListing_spec 10 [{ Style := ["bold"], Text := ascii " LIST " }] (ascii "f")
    [Line.mk (ascii "line 1") false, Line.mk (ascii "line 2") true,
      Line.mk (ascii "line 3") false] (by decide)).2.2.1 (by decide)
  refine ⟨by decide, ?_⟩
  rw [h]
  decide

end layout

/-! ## The last-command addon -/

namespace lastcmd

open cli histutil codearea

theorem digit?_digitKey (k : Nat) (hk : k ≤ 9) : digit? (digitKey k) = some k := by
  interval_cases k <;> rfl

theorem digit?_minus : digit? (45 : Byte) = none := by
  rfl

theorem accept_ok (app : App Widget) (word : GoString) (h : app.CodeArea.WellFormed) :
    ∃ buf, app.CodeArea.InsertAtDot (if app.CodeArea.Content = [] then word else 10 :: word)
        = .ok buf ∧
      app.accept word = .ok { app with CodeArea := buf, Listing := none } := by
  have hbuf := InsertAtDot_eq_ok (if app.CodeArea.Content = [] then word else 10 :: word) h
  refine ⟨_, hbuf, ?_⟩
  simp only [App.accept]
  by_cases hc : app.CodeArea.Content = []
  · simp only [hc, if_true] at hbuf ⊢
    rw [hbuf]; rfl
  · simp only [hc, if_false] at hbuf ⊢
    rw [hbuf]; rfl

theorem negEntries_getElem? (words : List GoString) (i : Nat) (word : GoString)
    (h : words[i]? = some word) :
    (negEntries words)[i]?
      = some { content := word, index := some ((i : Int) - (words.length : Int)) } := by
  simp [negEntries, List.getElem?_map, List.getElem?_enum, h]

theorem typeKey_minus (app : App Widget) (w : Widget) (h : w.Filter = []) :
    typeKey { app with Listing := some w } 45
      = .ok { app with Listing := some (w.OnFilter [45]) } := by
  simp [typeKey, numericIndex, digit?_minus, h]

theorem typeKey_digit (app : App Widget) (w : Widget) (k : Nat) (idx : Int)
    (word : GoString) (hidx : numericIndex w.Filter (digitKey k) = some idx)
    (hword : wordAt w.words idx = some word) :
    typeKey { app with Listing := some w } (digitKey k)
      = App.accept { app with Listing := some w } word := by
  simp [typeKey, hidx, hword]

/-- C10: in the last-command addon started over a last command that the
wordifier (the configured one, or the default white-space split) cuts into the
words `ws`, with `n` their number: typing `-` relabels the candidates so that
the candidates are the words in order, word `i` carrying the label `i - n`
(the last one `-1`), with the first of them selected; typing then a digit `k`
with `1 <= k <= n` accepts word `n - k` at once, and typing a digit `k < n`
first accepts word `k` at once.  Accepting inserts the word into the base code
area at the dot (after a line break when the code area already has content)
and closes the addon; into an empty code area it leaves exactly the word. -/
theorem lastcmd_digit_accepts (app : App Widget) (cmd : Entry)
    (wordifier : Option (GoString → List GoString)) (k : Nat)
    (hk : k ≤ 9) (hwf : app.CodeArea.WellFormed) :
    (∃ w, typeKeys (Start app { Store := some { LastCmd := .ok cmd }, Wordifier := wordifier })
          [45] = .ok { app with Listing := some w } ∧
        w.Filter = [45] ∧
        w.Filtered.length = ((wordifier.getD Fields) cmd.Text).length ∧
        (∀ (i : Nat) (word : GoString), ((wordifier.getD Fields) cmd.Text)[i]? = some word →
          w.Filtered[i]? = some (entry.mk word
            (some ((i : Int) - (((wordifier.getD Fields) cmd.Text).length : Int))))) ∧
        (0 < ((wordifier.getD Fields) cmd.Text).length → w.Selected = 0)) ∧
    (∀ word, 1 ≤ k → k ≤ ((wordifier.getD Fields) cmd.Text).length →
        ((wordifier.getD Fields) cmd.Text)[((wordifier.getD Fields) cmd.Text).length - k]?
          = some word →
        ∃ buf, app.CodeArea.InsertAtDot (if app.CodeArea.Content = [] then word else 10 :: word)
            = .ok buf ∧
          typeKeys (Start app { Store := some { LastCmd := .ok cmd }, Wordifier := wordifier })
            [45, digitKey k] = .ok { app with CodeArea := buf, Listing := none } ∧
          (app.CodeArea = { Content := [], Dot := 0 } →
            buf = { Content := word, Dot := (word.length : Int) })) ∧
    (∀ word, ((wordifier.getD Fields) cmd.Text)[k]? = some word →
        ∃ buf, app.CodeArea.InsertAtDot (if app.CodeArea.Content = [] then word else 10 :: word)
            = .ok buf ∧
          typeKeys (Start app { Store := some { LastCmd := .ok cmd }, Wordifier := wordifier })
            [digitKey k] = .ok { app with CodeArea := buf, Listing := none } ∧
          (app.CodeArea = { Content := [], Dot := 0 } →
            buf = { Content := word, Dot := (word.length : Int) })) := by
  generalize hws : (wordifier.getD Fields) cmd.Text = ws
  have hstart : Start app { Store := some { LastCmd := .ok cmd }, Wordifier := wordifier }
      = { app with Listing := some (started cmd.Text ws) } := by
    simp only [Start, hws]
  have hempty : ∀ word buf, app.CodeArea = { Content := [], Dot := 0 } →
      app.CodeArea.InsertAtDot (if app.CodeArea.Content = [] then word else 10 :: word) = .ok buf →
      buf = { Content := word, Dot := (word.length : Int) } := by
    intro word buf he hb
    rw [he] at hb
    simp only [if_true] at hb
    rw [InsertAtDot_eq_ok word (by decide)] at hb
    simp only [Except.ok.injEq] at hb
    rw [← hb]
    simp
  rw [hstart]
  refine ⟨?_, ?_, ?_⟩
  · refine ⟨(started cmd.Text ws).OnFilter [45], ?_, rfl, ?_, ?_, ?_⟩
    · simp only [typeKeys]
      rw [typeKey_minus app (started cmd.Text ws) rfl]
      rfl
    · simp [started, Widget.OnFilter, filter, negEntries]
    · intro i word hi
      exact negEntries_getElem? ws i word hi
    · intro hpos
      have : negEntries ws ≠ [] := by
        intro hn
        have := congrArg List.length hn
        simp only [negEntries, List.length_map, List.enum_length, List.length_nil] at this
        omega
      simp [started, Widget.OnFilter, filter, this]
  · intro word hk1 hkn hword
    obtain ⟨buf, hbuf, hacc⟩ := accept_ok
      { app with Listing := some ((started cmd.Text ws).OnFilter [45]) } word hwf
    refine ⟨buf, hbuf, ?_, fun he => hempty word buf he hbuf⟩
    simp only [typeKeys]
    rw [typeKey_minus app (started cmd.Text ws) rfl]
    show typeKey _ (digitKey k) >>= _ = _
    rw [typeKey_digit app _ k (-(k : Int)) word
      (by simp [numericIndex, digit?_digitKey k hk, Widget.OnFilter])
      (by
        have h1 : ¬ (0 ≤ -(k : Int)) := by omega
        have h2 : -(ws.length : Int) ≤ -(k : Int) := by omega
        have h3 : ((ws.length : Int) + -(k : Int)).toNat = ws.length - k := by omega
        simp only [wordAt, started, Widget.OnFilter, if_neg h1, if_pos h2, h3]
        exact hword)]
    rw [hacc]
    rfl
  · intro word hword
    obtain ⟨buf, hbuf, hacc⟩ := accept_ok
      { app with Listing := some (started cmd.Text ws) } word hwf
    refine ⟨buf, hbuf, ?_, fun he => hempty word buf he hbuf⟩
    simp only [typeKeys]
    rw [typeKey_digit app _ k (k : Int) word
      (by simp [numericIndex, digit?_digitKey k hk, started])
      (by
        have h1 : (0 : Int) ≤ (k : Int) := by omega
        simp only [wordAt, started, if_pos h1, Int.toNat_ofNat]
        exact hword)]
    rw [hacc]
    rfl

theorem lastcmd_digit_accepts_witness :
    (2 ≤ 9 ∧ (CodeBuffer.mk [] 0).WellFormed) ∧
    typeKeys (Start { CodeArea := { Content := [], Dot := 0 }, Listing := none, Notes := [] }
        { Store := some { LastCmd := .ok { Text := ascii "foo,bar,baz", Seq := 0 } },
          Wordifier := some commaWordifier }) [45, digitKey 2]
      = .ok { CodeArea := { Content := ascii "bar", Dot := 3 }, Listing := none, Notes := [] } ∧
    typeKeys (Start { CodeArea := { Content := [], Dot := 0 }, Listing := none, Notes := [] }
        { Store := some { LastCmd := .ok { Text := ascii "foo bar baz", Seq := 1 } },
          Wordifier := none }) [digitKey 0]
      = .ok { CodeArea := { Content := ascii "foo", Dot := 3 }, Listing := none, Notes := [] } := by
  obtain ⟨buf1, -, h1, e1⟩ :=
    (lastcmd_digit_accepts
      { CodeArea := { Content := [], Dot := 0 }, Listing := none, Notes := [] }
      { Text := ascii "foo,bar,baz", Seq := 0 } (some commaWordifier) 2
      (by decide) (by decide)).2.1 (ascii "bar") (by decide) (by decide) (by decide)
  obtain ⟨buf2, -, h2, e2⟩ :=
    (lastcmd_digit_accepts
      { CodeArea := { Content := [], Dot := 0 }, Listing := none, Notes := [] }
      { Text := ascii "foo bar baz", Seq := 1 } none 0
      (by decide) (by decide)).2.2 (ascii "foo") (by decide)
  refine ⟨⟨by decide, by decide⟩, ?_, ?_⟩
  · rw [h1, e1 rfl]; rfl
  · rw [h2, e2 rfl]; rfl

end lastcmd

end Elvish
